import Mathlib

/- Shallow embedding of the loss-aggregation and training-orchestration core of
the hgcal training scripts (`train_taus.py`, `train_taus_with_props.py`).
Tensors are modelled as lists of reals (elementwise semantics), the epoch and
batch loops as folds over lists, and the loss-component dictionary as an
insertion-ordered association list. -/

/-- Elementwise semantics of `softclip(array, start_clip_value)` from
`train_taus_with_props.py`: the input is divided by the clip value, entries
exceeding `1` are replaced by `log(entry + 1)`, and the result is scaled back
by the clip value. -/
noncomputable def softclip (x start_clip_value : ℝ) : ℝ :=
  (if x / start_clip_value > 1 then Real.log (x / start_clip_value + 1)
   else x / start_clip_value) * start_clip_value

/-- Tensor-level semantics of `softclip`, tracking the aliasing behaviour of
the source: `array /= start_clip_value` mutates the caller's tensor in place,
the subsequent `torch.where` and the final `* start_clip_value` allocate fresh
tensors. The first component is the caller's tensor as observed after the
call; the second component is the returned tensor. -/
noncomputable def softclipTensor (array : List ℝ) (start_clip_value : ℝ) :
    List ℝ × List ℝ :=
  let arr1 := array.map fun v => v / start_clip_value
  let arr2 := arr1.map fun v => if v > 1 then Real.log (v + 1) else v
  (arr1, arr2.map fun v => v * start_clip_value)

/-- Embedding of `torch.arctanh` (inverse hyperbolic tangent), used by
`calc_Lp` for the per-point property-loss weight of signal points. -/
noncomputable def arctanh (x : ℝ) : ℝ := Real.log ((1 + x) / (1 - x)) / 2

/-- Modelled from the spec: `oc.huber` lives in the external `torch_cmspepr`
package and is not part of this repository; the spec describes the position
sub-loss as a Huber-smoothed distance, so the standard Huber shape with
threshold `delta` is used (quadratic inside the threshold, linear outside). -/
noncomputable def huber (x delta : ℝ) : ℝ :=
  if |x| ≤ delta then x ^ 2 else delta * (2 * |x| - delta)

/-- Elementwise `calc_L_energy` from `train_taus_with_props.py`:
`softclip(10·exp(-0.1·diff²) + 0.01·diff, 10)` with
`diff = |pred_energy - truth_energy|`. -/
noncomputable def calc_L_energy (pred_energy truth_energy : ℝ) : ℝ :=
  softclip (10 * Real.exp (-(0.1) * |pred_energy - truth_energy| ^ 2)
    + 0.01 * |pred_energy - truth_energy|) 10

/-- Elementwise `calc_L_position` from `train_taus_with_props.py`:
`softclip(huber(sqrt(d²/100 + 1e-2), 10), 3)` with `d²` the squared Euclidean
distance of the two position columns. -/
noncomputable def calc_L_position (pred_position truth_position : ℝ × ℝ) : ℝ :=
  softclip (huber (Real.sqrt (((pred_position.1 - truth_position.1) ^ 2 +
    (pred_position.2 - truth_position.2) ^ 2) / 100 + 1e-2)) 10) 3

/-- Per-point weight `xi` of `calc_Lp`: a zero tensor whose entries at signal
points (`truth_cluster_index > 0`) are overwritten with
`arctanh(pred_beta)`. -/
noncomputable def xiList (pred_beta : List ℝ) (truth_cluster_index : List ℤ) :
    List ℝ :=
  List.zipWith (fun b idx => if idx > 0 then arctanh b else 0)
    pred_beta truth_cluster_index

/-- The inner closure `xi_weighting` of `calc_Lp`:
`1./xi_sum * (xi * L).sum() / batch_size`. -/
noncomputable def xi_weighting (xi L : List ℝ) (batch_size : ℝ) : ℝ :=
  1 / xi.sum * (List.zipWith (· * ·) xi L).sum / batch_size

/-- Column `[:, 0]` of the property matrices fed through the elementwise
energy sub-loss, as in `calc_Lp`. -/
noncomputable def L_energy_list
    (pred_cluster_properties truth_cluster_properties : List (ℝ × ℝ × ℝ)) :
    List ℝ :=
  List.zipWith calc_L_energy (pred_cluster_properties.map fun p => p.1)
    (truth_cluster_properties.map fun p => p.1)

/-- Columns `[:, 1:3]` of the property matrices fed through the elementwise
position sub-loss, as in `calc_Lp`. -/
noncomputable def L_position_list
    (pred_cluster_properties truth_cluster_properties : List (ℝ × ℝ × ℝ)) :
    List ℝ :=
  List.zipWith calc_L_position (pred_cluster_properties.map fun p => (p.2.1, p.2.2))
    (truth_cluster_properties.map fun p => (p.2.1, p.2.2))

/-- Function `calc_Lp` with `return_components = False`: the scalar property
loss `xi_weighting(L_energy) + xi_weighting(L_position)`. -/
noncomputable def calc_Lp (pred_beta : List ℝ) (truth_cluster_index : List ℤ)
    (pred_cluster_properties truth_cluster_properties : List (ℝ × ℝ × ℝ))
    (batch_size : ℝ) : ℝ :=
  let xi := xiList pred_beta truth_cluster_index
  xi_weighting xi (L_energy_list pred_cluster_properties truth_cluster_properties)
      batch_size
    + xi_weighting xi (L_position_list pred_cluster_properties truth_cluster_properties)
      batch_size

/-- Function `calc_Lp` with `return_components = True`: the named component
mapping of `L_p_energy`, `L_p_position` and `L_p`. -/
noncomputable def calc_Lp_components (pred_beta : List ℝ)
    (truth_cluster_index : List ℤ)
    (pred_cluster_properties truth_cluster_properties : List (ℝ × ℝ × ℝ))
    (batch_size : ℝ) : List (String × ℝ) :=
  let xi := xiList pred_beta truth_cluster_index
  let e := xi_weighting xi
    (L_energy_list pred_cluster_properties truth_cluster_properties) batch_size
  let p := xi_weighting xi
    (L_position_list pred_cluster_properties truth_cluster_properties) batch_size
  [("L_p_energy", e), ("L_p_position", p), ("L_p", e + p)]

/-- The constant `loss_offset = 1.` declared by both training scripts "to
prevent a negative loss from ever occuring". -/
def loss_offset : ℚ := 1

/-- The default value `1.` of the scale parameter `s_c` of the props-variant
`loss_fn`. -/
def s_c_default : ℚ := 1

/-- Scalar mode of `loss_fn` from `train_taus.py` (the annealing variant), as
a function of the two scalars returned by the external `oc.calc_LV_Lbeta`
and the epoch index: `L_beta` is dropped while `i_epoch <= 7`. -/
def loss_fn_anneal (LV Lbeta : ℚ) (i_epoch : ℕ) : ℚ :=
  if i_epoch ≤ 7 then LV + loss_offset else LV + Lbeta + loss_offset

/-- Scalar mode of `loss_fn` from `train_taus_with_props.py`, as a function
of the scalars produced by the external clustering/confidence loss, the
property loss, and the scale `s_c`. -/
def loss_fn_total (LV Lbeta Lp s_c : ℚ) : ℚ :=
  s_c * (LV + Lbeta) + Lp + loss_offset

/-- The best-checkpoint loop of `main`: starting from the running minimum
`min_loss`, epoch `i` writes a `best` checkpoint exactly when its validation
loss is strictly below the running minimum, which is then updated. Returns
the epoch indices at which the `best` checkpoint is written. -/
def runBest : List ℚ → ℚ → ℕ → List ℕ
  | [], _, _ => []
  | l :: rest, min_loss, i =>
    if l < min_loss then i :: runBest rest l (i + 1)
    else runBest rest min_loss (i + 1)

/-- Epochs at which `ckpt_best.pth.tar` is written, with the running minimum
seeded at the sentinel `min_loss = 1e9` as in both scripts. -/
def bestEpochs (losses : List ℚ) : List ℕ := runBest losses (10 ^ 9) 0

/-- A training batch as the batch loop of `train` observes it: for the
diagnostics contract only the per-point source-file indices `data.inpz`
matter; features, labels and coordinates are consumed opaquely by the step
function. -/
structure Batch where
  inpz : List ℕ

/-- The diagnostic list printed by the `except` handler of `train`:
`train_dataset.npzs[int(i)] for i in data.inpz`, the source-file name of
every point of the offending batch. -/
def npzListOf (npzs : List String) (b : Batch) : List String :=
  b.inpz.map fun i => npzs.getD i ""

/-- The batch loop of `train` wrapped in its `try/except`: batches are
processed in order by `step` (forward pass, loss, backward pass, optimizer
and scheduler steps); when a batch raises, the per-point source files of the
offending batch are printed and the same exception is re-raised, so no
further batch is processed. Returns the printed source-file list together
with the outcome of the loop. -/
def trainLoop {E : Type} (step : Batch → Except E Unit) (npzs : List String) :
    List Batch → List String × Except E Unit
  | [] => ([], Except.ok ())
  | b :: rest =>
    match step b with
    | Except.ok _ => trainLoop step npzs rest
    | Except.error e => (npzListOf npzs b, Except.error e)

/-- A concrete step function for the C10 witness: the batch whose points all
come from source file `0` raises, every other batch succeeds. -/
def stepWitness : Batch → Except String Unit := fun b =>
  if b.inpz = [0] then Except.error "boom" else Except.ok ()

/-- Lookup `m[k]` in the insertion-ordered loss-component mapping; `none`
models a Python `KeyError`. -/
def getVal : List (String × ℚ) → String → Option ℚ
  | [], _ => none
  | (k', v) :: rest, k => if k' = k then some v else getVal rest k

/-- Python dictionary assignment `m[k] = v` on the insertion-ordered
mapping: overwrite in place when the key exists, append otherwise. -/
def setVal : List (String × ℚ) → String → ℚ → List (String × ℚ)
  | [], k, v => [(k, v)]
  | (k', v') :: rest, k, v =>
    if k' = k then (k, v) :: rest else (k', v') :: setVal rest k v

/-- Total value a mapping carries for a key: the sum over its entries with
that key (a well-formed dictionary has at most one such entry). -/
def valSum : List (String × ℚ) → String → ℚ
  | [], _ => 0
  | (k', v) :: rest, k => if k' = k then v + valSum rest k else valSum rest k

/-- The closure `update(components)` of both `test` functions: every entry of
the batch's component mapping is added into the accumulator, with absent keys
first created at `0.`. -/
def updateComponents (acc comps : List (String × ℚ)) : List (String × ℚ) :=
  comps.foldl (fun a kv => setVal a kv.1 ((getVal a kv.1).getD 0 + kv.2)) acc

/-- Accumulation over the validation batches: `loss_components` starts empty
and `update` is applied once per batch. -/
def accumulateComponents (batches : List (List (String × ℚ))) :
    List (String × ℚ) :=
  batches.foldl updateComponents []

/-- Division of every accumulated component by the number of validation
batches (`N_test = len(test_loader)`). -/
def averageComponents (batches : List (List (String × ℚ))) :
    List (String × ℚ) :=
  (accumulateComponents batches).map fun kv =>
    (kv.1, kv.2 / (batches.length : ℚ))

/-- Modelled from the spec: the named component mapping returned by the
external `oc.calc_LV_Lbeta` (from the `torch_cmspepr` package, not part of
this repository) when components are requested — the clustering/confidence
loss contract yields entries for `L_V` and `L_beta`; an `L_total` entry is
appended only later, by the props-variant `loss_fn` itself. -/
def oc_components (LV Lbeta : ℚ) : List (String × ℚ) :=
  [("L_V", LV), ("L_beta", Lbeta)]

/-- Python `dict.update`: assign every entry of `m2` into `m`. -/
def dictUpdate (m m2 : List (String × ℚ)) : List (String × ℚ) :=
  m2.foldl (fun a kv => setVal a kv.1 kv.2) m

/-- Component mode of the props-variant `loss_fn`: the external mapping is
updated with the `calc_Lp` component entries, then an `L_total` entry
computed from the mapping's own `L_V`, `L_beta` and `L_p` entries is
assigned. -/
def loss_fn_props_components (LV Lbeta Lp_energy Lp_position s_c : ℚ) :
    List (String × ℚ) :=
  let out_oc := dictUpdate (oc_components LV Lbeta)
    [("L_p_energy", Lp_energy), ("L_p_position", Lp_position),
     ("L_p", Lp_energy + Lp_position)]
  setVal out_oc "L_total"
    (s_c * ((getVal out_oc "L_V").getD 0 + (getVal out_oc "L_beta").getD 0)
      + (getVal out_oc "L_p").getD 0 + loss_offset)

/-- The epoch scalar of `test` in `train_taus_with_props.py`: the `L_total`
entry of the averaged component mapping. -/
def test_scalar_props (batches : List (List (String × ℚ))) : Option ℚ :=
  getVal (averageComponents batches) "L_total"

/-- The epoch scalar of `test` in `train_taus.py`:
`loss_offset + loss_components['L_V'] + loss_components['L_beta']` computed
from the averaged mapping. -/
def test_scalar_anneal (batches : List (List (String × ℚ))) : Option ℚ := do
  let v ← getVal (averageComponents batches) "L_V"
  let b ← getVal (averageComponents batches) "L_beta"
  pure (loss_offset + v + b)

/-- The code's `1./xi_sum * (xi * L).sum() / batch_size` equals the
specification's `(Σ xi·L) / (Σ xi) / batch_size`. -/
theorem xi_weighting_eq_div (xi L : List ℝ) (batch_size : ℝ) :
    xi_weighting xi L batch_size =
      (List.zipWith (· * ·) xi L).sum / xi.sum / batch_size := by
  unfold xi_weighting
  ring

/-- All weights vanish on an all-background batch. -/
theorem xiList_sum_eq_zero (pred_beta : List ℝ) (tci : List ℤ)
    (h : ∀ idx ∈ tci, idx ≤ 0) : (xiList pred_beta tci).sum = 0 := by
  induction pred_beta generalizing tci with
  | nil => simp [xiList]
  | cons b bs ih =>
    cases tci with
    | nil => simp [xiList]
    | cons i is =>
      have hi : i ≤ 0 := h i (by simp)
      have hrest : ∀ idx ∈ is, idx ≤ 0 := fun idx hidx => h idx (by simp [hidx])
      simp only [xiList, List.zipWith_cons_cons, List.sum_cons]
      rw [if_neg (not_lt.mpr hi), zero_add]
      exact ih is hrest

/-- C4: `calc_Lp` computes each batch-level sub-loss as
`(Σ xi·L) / (Σ xi) / batch_size`, with `xi` zero for non-signal points and
`arctanh(confidence)` for signal points, and returns
`L_p = L_p_energy + L_p_position`, exposed as the mapping
`{L_p_energy, L_p_position, L_p}` when a component breakdown is requested. -/
theorem calc_Lp_weighted_reduction (pred_beta : List ℝ)
    (truth_cluster_index : List ℤ) (predP truthP : List (ℝ × ℝ × ℝ))
    (batch_size : ℝ) :
    calc_Lp pred_beta truth_cluster_index predP truthP batch_size =
      (List.zipWith (· * ·) (xiList pred_beta truth_cluster_index)
          (L_energy_list predP truthP)).sum
        / (xiList pred_beta truth_cluster_index).sum / batch_size
      + (List.zipWith (· * ·) (xiList pred_beta truth_cluster_index)
          (L_position_list predP truthP)).sum
        / (xiList pred_beta truth_cluster_index).sum / batch_size ∧
    calc_Lp_components pred_beta truth_cluster_index predP truthP batch_size =
      [("L_p_energy",
         (List.zipWith (· * ·) (xiList pred_beta truth_cluster_index)
             (L_energy_list predP truthP)).sum
           / (xiList pred_beta truth_cluster_index).sum / batch_size),
       ("L_p_position",
         (List.zipWith (· * ·) (xiList pred_beta truth_cluster_index)
             (L_position_list predP truthP)).sum
           / (xiList pred_beta truth_cluster_index).sum / batch_size),
       ("L_p",
         (List.zipWith (· * ·) (xiList pred_beta truth_cluster_index)
             (L_energy_list predP truthP)).sum
           / (xiList pred_beta truth_cluster_index).sum / batch_size
         + (List.zipWith (· * ·) (xiList pred_beta truth_cluster_index)
             (L_position_list predP truthP)).sum
           / (xiList pred_beta truth_cluster_index).sum / batch_size)] := by
  refine ⟨?_, ?_⟩ <;>
    simp only [calc_Lp, calc_Lp_components, xi_weighting_eq_div]

/-- C5: on an all-background batch (no point with positive truth cluster
index) the weight sum of `calc_Lp` is `0`, and the unguarded weighted
reduction is evaluated with this zero denominator. -/
theorem calc_Lp_zero_weight_sum_on_background (pred_beta : List ℝ)
    (truth_cluster_index : List ℤ) (predP truthP : List (ℝ × ℝ × ℝ))
    (batch_size : ℝ) (hbg : ∀ idx ∈ truth_cluster_index, idx ≤ 0) :
    (xiList pred_beta truth_cluster_index).sum = 0 ∧
    calc_Lp pred_beta truth_cluster_index predP truthP batch_size =
      (List.zipWith (· * ·) (xiList pred_beta truth_cluster_index)
        (L_energy_list predP truthP)).sum / 0 / batch_size
      + (List.zipWith (· * ·) (xiList pred_beta truth_cluster_index)
        (L_position_list predP truthP)).sum / 0 / batch_size := by
  have hsum : (xiList pred_beta truth_cluster_index).sum = 0 :=
    xiList_sum_eq_zero pred_beta truth_cluster_index hbg
  refine ⟨hsum, ?_⟩
  simp only [calc_Lp, xi_weighting_eq_div, hsum]

/-- Witness for C5 at a concrete one-point all-background batch. -/
theorem calc_Lp_zero_weight_sum_on_background_witness :
    (xiList [(1:ℝ)/2] [(0:ℤ)]).sum = 0 ∧
    calc_Lp [(1:ℝ)/2] [(0:ℤ)] [((0:ℝ), 0, 0)] [((0:ℝ), 0, 0)] 1 =
      (List.zipWith (· * ·) (xiList [(1:ℝ)/2] [(0:ℤ)])
        (L_energy_list [((0:ℝ), 0, 0)] [((0:ℝ), 0, 0)])).sum / 0 / 1
      + (List.zipWith (· * ·) (xiList [(1:ℝ)/2] [(0:ℤ)])
        (L_position_list [((0:ℝ), 0, 0)] [((0:ℝ), 0, 0)])).sum / 0 / 1 :=
  calc_Lp_zero_weight_sum_on_background _ _ _ _ _ (by decide)

/-- C2: in the annealing variant, epochs `0..7` return `L_V + loss_offset`
with `L_beta` excluded, epochs `>= 8` return `L_V + L_beta + loss_offset`,
and with nonzero `L_beta` the scalars at epochs `7` and `8` differ. -/
theorem loss_fn_anneal_epoch_boundary (LV Lbeta : ℚ) (i_epoch : ℕ) :
    (i_epoch ≤ 7 → loss_fn_anneal LV Lbeta i_epoch = LV + loss_offset) ∧
    (8 ≤ i_epoch → loss_fn_anneal LV Lbeta i_epoch = LV + Lbeta + loss_offset) ∧
    (Lbeta ≠ 0 → loss_fn_anneal LV Lbeta 7 ≠ loss_fn_anneal LV Lbeta 8) := by
  have h7 : loss_fn_anneal LV Lbeta 7 = LV + loss_offset := by
    unfold loss_fn_anneal; norm_num
  have h8 : loss_fn_anneal LV Lbeta 8 = LV + Lbeta + loss_offset := by
    unfold loss_fn_anneal; norm_num
  refine ⟨fun h => by unfold loss_fn_anneal; rw [if_pos h],
    fun h => by unfold loss_fn_anneal; rw [if_neg (by omega)], fun hb => ?_⟩
  rw [h7, h8]
  intro heq
  exact hb (by linarith)

/-- Witness for C2 at `L_V = 0`, `L_beta = 1`, epochs `7` and `8`. -/
theorem loss_fn_anneal_epoch_boundary_witness :
    loss_fn_anneal 0 1 7 = 0 + loss_offset ∧
    loss_fn_anneal 0 1 8 = 0 + 1 + loss_offset ∧
    loss_fn_anneal 0 1 7 ≠ loss_fn_anneal 0 1 8 :=
  ⟨(loss_fn_anneal_epoch_boundary 0 1 7).1 (by norm_num),
   (loss_fn_anneal_epoch_boundary 0 1 8).2.1 (by norm_num),
   (loss_fn_anneal_epoch_boundary 0 1 7).2.2 (by norm_num)⟩

/-- C6 counterexample: with `L_V = -2`, `L_beta = 0`, `L_p = 0` and the
default `s_c`, the combined loss is `-1`, which is negative — the constant
offset `1.0` cannot make the scalar non-negative regardless of component
signs. -/
theorem loss_fn_total_negative :
    loss_fn_total (-2) 0 0 s_c_default = -1 ∧
    loss_fn_total (-2) 0 0 s_c_default < 0 := by
  constructor <;> norm_num [loss_fn_total, s_c_default, loss_offset]

/-- C6 amended: the combined loss is `s_c·(L_V + L_beta) + L_p + 1` with
`loss_offset = 1` and `s_c` defaulting to `1`; it is negative exactly when
the offset component sum `s_c·(L_V + L_beta) + L_p` is below `-1`, and in
particular non-negative whenever all components and `s_c` are
non-negative. -/
theorem loss_fn_total_spec (LV Lbeta Lp s_c : ℚ) :
    loss_offset = 1 ∧ s_c_default = 1 ∧
    loss_fn_total LV Lbeta Lp s_c = s_c * (LV + Lbeta) + Lp + 1 ∧
    (loss_fn_total LV Lbeta Lp s_c < 0 ↔ s_c * (LV + Lbeta) + Lp < -1) ∧
    (0 ≤ LV → 0 ≤ Lbeta → 0 ≤ Lp → 0 ≤ s_c →
      0 ≤ loss_fn_total LV Lbeta Lp s_c) := by
  refine ⟨rfl, rfl, rfl, ?_, ?_⟩
  · unfold loss_fn_total loss_offset
    constructor <;> intro h <;> linarith
  · intro h1 h2 h3 h4
    unfold loss_fn_total loss_offset
    have hm : 0 ≤ s_c * (LV + Lbeta) := mul_nonneg h4 (add_nonneg h1 h2)
    linarith

/-- Witness for C6 amended at `L_V = L_beta = L_p = s_c = 1`. -/
theorem loss_fn_total_spec_witness :
    loss_fn_total 1 1 1 1 = 1 * (1 + 1) + 1 + 1 ∧ 0 ≤ loss_fn_total 1 1 1 1 :=
  ⟨(loss_fn_total_spec 1 1 1 1).2.2.1,
   (loss_fn_total_spec 1 1 1 1).2.2.2.2 (by norm_num) (by norm_num)
     (by norm_num) (by norm_num)⟩

/-- Membership in the best-checkpoint epoch list, for an arbitrary seed of
the running minimum: epoch `i + k` is recorded exactly when the loss at
offset `k` is strictly below the minimum of the seed and all earlier
losses. -/
theorem runBest_mem (l : List ℚ) : ∀ (m : ℚ) (i j : ℕ),
    j ∈ runBest l m i ↔
      ∃ k, j = i + k ∧ k < l.length ∧
        l.getD k 0 < (l.take k).foldl min m := by
  induction l with
  | nil =>
    intro m i j
    simp [runBest]
  | cons x rest ih =>
    intro m i j
    by_cases hxm : x < m
    · rw [show runBest (x :: rest) m i = i :: runBest rest x (i + 1) from by
        simp [runBest, hxm]]
      constructor
      · intro hmem
        rcases List.mem_cons.mp hmem with hj | hj
        · exact ⟨0, by omega, by simp, by simpa using hxm⟩
        · rcases (ih x (i + 1) j).mp hj with ⟨k', hjk, hk, hlt⟩
          refine ⟨k' + 1, by omega, by simpa using Nat.succ_lt_succ hk, ?_⟩
          simpa [min_eq_right hxm.le] using hlt
      · rintro ⟨k, hjk, hk, hlt⟩
        cases k with
        | zero => exact List.mem_cons.mpr (Or.inl (by omega))
        | succ k' =>
          refine List.mem_cons.mpr
            (Or.inr ((ih x (i + 1) j).mpr ⟨k', by omega, by simpa using hk, ?_⟩))
          simpa [min_eq_right hxm.le] using hlt
    · rw [show runBest (x :: rest) m i = runBest rest m (i + 1) from by
        simp [runBest, hxm]]
      rw [ih m (i + 1) j]
      constructor
      · rintro ⟨k', hjk, hk, hlt⟩
        refine ⟨k' + 1, by omega, by simpa using Nat.succ_lt_succ hk, ?_⟩
        simpa [min_eq_left (not_lt.mp hxm)] using hlt
      · rintro ⟨k, hjk, hk, hlt⟩
        cases k with
        | zero =>
          exact absurd (by simpa using hlt) hxm
        | succ k' =>
          refine ⟨k', by omega, by simpa using hk, ?_⟩
          simpa [min_eq_left (not_lt.mp hxm)] using hlt

/-- C3: the `best` checkpoint is written exactly at epochs whose validation
loss is strictly below the minimum of the `1e9` sentinel and all earlier
losses (ties never trigger a write); every first-epoch loss below the
sentinel qualifies; and for the loss sequence `[5, 3, 4, 2, 2]` the `best`
checkpoint is written at epochs `0`, `1` and `3` only. -/
theorem best_checkpoint_strict_min :
    (∀ (losses : List ℚ) (j : ℕ),
      j ∈ bestEpochs losses ↔
        j < losses.length ∧
          losses.getD j 0 < (losses.take j).foldl min (10 ^ 9)) ∧
    (∀ (l0 : ℚ) (rest : List ℚ), l0 < 10 ^ 9 → 0 ∈ bestEpochs (l0 :: rest)) ∧
    bestEpochs [5, 3, 4, 2, 2] = [0, 1, 3] := by
  have hchar : ∀ (losses : List ℚ) (j : ℕ),
      j ∈ bestEpochs losses ↔
        j < losses.length ∧
          losses.getD j 0 < (losses.take j).foldl min (10 ^ 9) := by
    intro losses j
    rw [bestEpochs, runBest_mem]
    constructor
    · rintro ⟨k, hjk, hk, hlt⟩
      have hkj : k = j := by omega
      subst hkj
      exact ⟨hk, hlt⟩
    · rintro ⟨hk, hlt⟩
      exact ⟨j, by omega, hk, hlt⟩
  refine ⟨hchar, fun l0 rest h0 => (hchar (l0 :: rest) 0).mpr ?_, by decide⟩
  exact ⟨by simp, by simpa using h0⟩

/-- Witness for C3's characterization at the sequence `[5, 3]`, epoch `1`. -/
theorem best_checkpoint_strict_min_witness : 1 ∈ bestEpochs [5, 3] :=
  (best_checkpoint_strict_min.1 [5, 3] 1).mpr (by decide)

/-- C8: for every input `x` with `0 ≤ x ≤ T` and clip threshold `T > 0`,
`softclip(x, T)` returns exactly `x`: after rescaling by `1/T` the value is at
most `1`, so the logarithmic branch is not taken and rescaling by `T` restores
the input. -/
theorem softclip_identity_below_threshold (x T : ℝ) (hx : 0 ≤ x) (hxT : x ≤ T)
    (hT : 0 < T) : softclip x T = x := by
  unfold softclip
  have h1 : x / T ≤ 1 := (div_le_one hT).mpr hxT
  rw [if_neg (not_lt.mpr h1)]
  exact div_mul_cancel₀ x hT.ne'

/-- Witness for C8 at the concrete input `x = 1`, `T = 2`. -/
theorem softclip_identity_below_threshold_witness :
    (0:ℝ) ≤ 1 ∧ (1:ℝ) ≤ 2 ∧ (0:ℝ) < 2 ∧ softclip 1 2 = 1 :=
  ⟨by norm_num, by norm_num, by norm_num,
    softclip_identity_below_threshold 1 2 (by norm_num) (by norm_num)
      (by norm_num)⟩

/-- C1: monotonicity fails at the clip threshold. With `T = 1`, the inputs
`x1 = 1 ≤ x2 = 3/2` are both non-negative, yet
`softclip(3/2, 1) = log(5/2) < 1 = softclip(1, 1)`: the `log(x + 1)` branch
jumps below the identity branch just past the threshold, so the code is not
monotonic non-decreasing as the specification guarantees. -/
theorem softclip_not_monotone_at_threshold :
    (0:ℝ) ≤ 1 ∧ (1:ℝ) ≤ 3/2 ∧ (0:ℝ) < 1 ∧ softclip (3/2) 1 < softclip 1 1 := by
  refine ⟨by norm_num, by norm_num, by norm_num, ?_⟩
  have h1 : softclip 1 1 = 1 := by
    unfold softclip
    rw [if_neg (by norm_num)]
    norm_num
  have h2 : softclip (3/2) 1 = Real.log (5/2) := by
    unfold softclip
    rw [if_pos (by norm_num)]
    norm_num
  rw [h1, h2]
  have h3 : (5/2 : ℝ) < Real.exp 1 := lt_trans (by norm_num) Real.exp_one_gt_d9
  exact (Real.log_lt_iff_lt_exp (by norm_num)).mpr h3

/-- C9 counterexample: `softclip` is not side-effect free. Calling it on the
one-element tensor `[2]` with clip value `2` leaves the caller's tensor equal
to `[1]` (the in-place division `array /= start_clip_value`), not `[2]`. -/
theorem softclipTensor_mutates_input : (softclipTensor [2] 2).1 ≠ [2] := by
  simp only [softclipTensor]
  norm_num

/-- C9 amended: `softclip` divides the caller's tensor in place by the clip
value — after the call the input holds the original entries divided by `T` —
while the tensor it returns is a fresh tensor whose entries are the
elementwise mathematical softclip of the original entries. -/
theorem softclipTensor_spec (array : List ℝ) (T : ℝ) :
    (softclipTensor array T).1 = array.map (fun v => v / T) ∧
    (softclipTensor array T).2 = array.map (fun v => softclip v T) := by
  constructor
  · rfl
  · unfold softclipTensor softclip
    simp only [List.map_map]
    rfl

/-- C10: if every batch before `b` succeeds and `b` raises `e`, the training
loop prints exactly the source-file identifiers of `b` and propagates the
same exception `e`, independently of the batches remaining after `b` (they
are never processed). -/
theorem trainLoop_diagnostics {E : Type} (step : Batch → Except E Unit)
    (npzs : List String) (pre : List Batch) (b : Batch) (rest : List Batch)
    (e : E) (hpre : ∀ b' ∈ pre, step b' = Except.ok ())
    (hb : step b = Except.error e) :
    trainLoop step npzs (pre ++ b :: rest) =
      (npzListOf npzs b, Except.error e) := by
  induction pre with
  | nil => simp [trainLoop, hb]
  | cons p ps ih =>
    have hp : step p = Except.ok () := hpre p (by simp)
    have hrec : ∀ b' ∈ ps, step b' = Except.ok () :=
      fun b' h => hpre b' (by simp [h])
    simpa [trainLoop, hp] using ih hrec

/-- Witness for C10: with source files `a.npz`, `b.npz`, a passing batch, a
failing batch and a further (never processed) batch, the loop reports the
failing batch's file list and re-raises its exception. -/
theorem trainLoop_diagnostics_witness :
    trainLoop stepWitness ["a.npz", "b.npz"] [⟨[1]⟩, ⟨[0]⟩, ⟨[1]⟩] =
      (["a.npz"], Except.error "boom") := by
  have h := trainLoop_diagnostics stepWitness ["a.npz", "b.npz"] [⟨[1]⟩] ⟨[0]⟩
    [⟨[1]⟩] "boom"
    (by
      intro b' hb'
      rw [List.mem_singleton] at hb'
      subst hb'
      rfl)
    (by rfl)
  simpa [npzListOf] using h

/-- Writing a key stores exactly the written value. -/
theorem getVal_setVal_self (m : List (String × ℚ)) (k : String) (v : ℚ) :
    getVal (setVal m k v) k = some v := by
  induction m with
  | nil => simp [setVal, getVal]
  | cons kv rest ih =>
    obtain ⟨k', v'⟩ := kv
    by_cases h : k' = k <;> simp [setVal, getVal, h, ih]

/-- Writing one key leaves every other key unchanged. -/
theorem getVal_setVal_ne (m : List (String × ℚ)) (kw k : String) (v : ℚ)
    (h : kw ≠ k) : getVal (setVal m kw v) k = getVal m k := by
  induction m with
  | nil => simp [setVal, getVal, h]
  | cons kv rest ih =>
    obtain ⟨k', v'⟩ := kv
    by_cases h' : k' = kw
    · subst h'
      simp [setVal, getVal, h]
    · simp [setVal, getVal, h', ih]

/-- A key that is absent contributes no value. -/
theorem valSum_eq_zero_of_none (m : List (String × ℚ)) (k : String)
    (h : getVal m k = none) : valSum m k = 0 := by
  induction m with
  | nil => simp [valSum]
  | cons kv rest ih =>
    obtain ⟨k', v'⟩ := kv
    by_cases hk : k' = k
    · simp [getVal, hk] at h
    · simp [getVal, hk] at h
      simp [valSum, hk, ih h]

/-- Effect of one `update(components)` call on a single key: if the batch
mapping carries the key, the accumulator entry becomes its previous value
(defaulting to `0`) plus the batch's total for that key; otherwise the
accumulator entry is untouched. -/
theorem getVal_updateComponents (comps : List (String × ℚ)) :
    ∀ (acc : List (String × ℚ)) (k : String),
      getVal (updateComponents acc comps) k =
        if (getVal comps k).isSome then
          some ((getVal acc k).getD 0 + valSum comps k)
        else getVal acc k := by
  induction comps with
  | nil =>
    intro acc k
    simp [updateComponents, getVal]
  | cons kv rest ih =>
    intro acc k
    obtain ⟨k0, v0⟩ := kv
    have hstep : updateComponents acc ((k0, v0) :: rest) =
        updateComponents (setVal acc k0 ((getVal acc k0).getD 0 + v0)) rest :=
      rfl
    rw [hstep, ih]
    by_cases h0 : k0 = k
    · subst h0
      rw [getVal_setVal_self]
      by_cases hr : (getVal rest k0).isSome
      · simp only [getVal, valSum, if_pos rfl, hr, Option.isSome_some,
          if_true, Option.getD_some]
        simp [add_assoc]
      · have hnone : getVal rest k0 = none := by
          cases hcase : getVal rest k0 with
          | none => rfl
          | some w => rw [hcase] at hr; simp at hr
        simp only [getVal, valSum, if_pos rfl, hnone, Option.isSome_none,
          Bool.false_eq_true, if_false, Option.isSome_some, if_true]
        rw [valSum_eq_zero_of_none rest k0 hnone]
        simp
    · rw [getVal_setVal_ne _ _ _ _ h0]
      simp [getVal, valSum, h0]

/-- Batches whose mappings all miss a key contribute nothing to it. -/
theorem map_valSum_eq_zero (batches : List (List (String × ℚ))) (k : String)
    (h : ∀ b ∈ batches, getVal b k = none) :
    (batches.map fun b => valSum b k).sum = 0 := by
  induction batches with
  | nil => simp
  | cons b rest ih =>
    simp only [List.map_cons, List.sum_cons]
    rw [valSum_eq_zero_of_none b k (h b (by simp)),
      ih (fun b' hb' => h b' (by simp [hb']))]
    simp

/-- Folding `update` over the batches, from an arbitrary accumulator: a key
carried by at least one batch ends at its initial value (defaulting to `0`)
plus the sum of all batch contributions; a key carried by no batch keeps its
initial entry. -/
theorem getVal_foldl_updateComponents (batches : List (List (String × ℚ))) :
    ∀ (acc : List (String × ℚ)) (k : String),
      getVal (List.foldl updateComponents acc batches) k =
        if batches.any (fun b => (getVal b k).isSome) then
          some ((getVal acc k).getD 0 + (batches.map fun b => valSum b k).sum)
        else getVal acc k := by
  induction batches with
  | nil =>
    intro acc k
    simp
  | cons b rest ih =>
    intro acc k
    rw [List.foldl_cons, ih, getVal_updateComponents]
    by_cases hb : (getVal b k).isSome
    · by_cases hr : rest.any (fun b' => (getVal b' k).isSome)
      · simp [hb, hr, add_assoc]
      · have hrest : ∀ b' ∈ rest, getVal b' k = none := by
          simpa using hr
        simp [hb, hr, map_valSum_eq_zero rest k hrest]
    · have hbnone : getVal b k = none := Option.not_isSome_iff_eq_none.mp hb
      by_cases hr : rest.any (fun b' => (getVal b' k).isSome)
      · simp [hb, hr, valSum_eq_zero_of_none b k hbnone]
      · simp [hb, hr]

/-- Lookup commutes with dividing every value of the mapping. -/
theorem getVal_map_snd (m : List (String × ℚ)) (c : ℚ) (k : String) :
    getVal (m.map fun kv => (kv.1, kv.2 / c)) k =
      (getVal m k).map fun v => v / c := by
  induction m with
  | nil => simp [getVal]
  | cons kv rest ih =>
    obtain ⟨k', v'⟩ := kv
    by_cases h : k' = k <;> simp [getVal, h, ih]

/-- The averaged component mapping: a key carried by at least one batch maps
to the sum of all its batch contributions divided by the batch count; a key
carried by no batch is absent. -/
theorem getVal_averageComponents (batches : List (List (String × ℚ)))
    (k : String) :
    getVal (averageComponents batches) k =
      if batches.any (fun b => (getVal b k).isSome) then
        some ((batches.map fun b => valSum b k).sum / (batches.length : ℚ))
      else none := by
  unfold averageComponents accumulateComponents
  rw [getVal_map_snd, getVal_foldl_updateComponents]
  by_cases h : batches.any (fun b => (getVal b k).isSome) <;>
    simp [h, getVal]

/-- Normal form of the component mapping built by the props-variant
`loss_fn`: the two external entries, the three property-loss entries, and the
appended total. -/
theorem loss_fn_props_components_eq (LV Lb e p sc : ℚ) :
    loss_fn_props_components LV Lb e p sc =
      [("L_V", LV), ("L_beta", Lb), ("L_p_energy", e), ("L_p_position", p),
       ("L_p", e + p),
       ("L_total", sc * (LV + Lb) + (e + p) + loss_offset)] := by
  simp [loss_fn_props_components, dictUpdate, oc_components, setVal, getVal]

/-- Sum of the per-batch totals of the annealing validation pass. -/
theorem sum_map_total (pairs : List (ℚ × ℚ)) :
    (pairs.map fun q => q.1 + q.2 + loss_offset).sum =
      (pairs.map fun q => q.1).sum + (pairs.map fun q => q.2).sum
        + (pairs.length : ℚ) * loss_offset := by
  induction pairs with
  | nil => simp
  | cons q rest ih =>
    simp only [List.map_cons, List.sum_cons, List.length_cons, ih]
    push_cast
    ring

/-- C7 amended: accumulation sums each named component over the validation
batches and divides by the batch count. The props-variant epoch scalar is the
`L_total` entry of this averaged breakdown. The annealing-variant breakdown
carries no total entry at all; its epoch scalar is instead re-derived as
`loss_offset` plus the averaged `L_V` and `L_beta` entries, which equals the
batch-average of the per-batch totals `L_V + L_beta + loss_offset`. -/
theorem validation_accumulation_spec :
    (∀ (batches : List (List (String × ℚ))) (k : String),
      ((batches.any fun b => (getVal b k).isSome) = true →
        getVal (averageComponents batches) k =
          some ((batches.map fun b => valSum b k).sum /
            (batches.length : ℚ))) ∧
      ((batches.any fun b => (getVal b k).isSome) = false →
        getVal (averageComponents batches) k = none)) ∧
    (∀ (vals : List (ℚ × ℚ × ℚ × ℚ)) (sc : ℚ), vals ≠ [] →
      test_scalar_props (vals.map fun t =>
          loss_fn_props_components t.1 t.2.1 t.2.2.1 t.2.2.2 sc) =
        some ((vals.map fun t =>
          sc * (t.1 + t.2.1) + (t.2.2.1 + t.2.2.2) + loss_offset).sum /
            (vals.length : ℚ))) ∧
    (∀ pairs : List (ℚ × ℚ), pairs ≠ [] →
      getVal (averageComponents (pairs.map fun q => oc_components q.1 q.2))
          "L_total" = none ∧
      test_scalar_anneal (pairs.map fun q => oc_components q.1 q.2) =
        some ((pairs.map fun q => q.1 + q.2 + loss_offset).sum /
          (pairs.length : ℚ))) := by
  refine ⟨?_, ?_, ?_⟩
  · intro batches k
    constructor
    · intro h
      rw [getVal_averageComponents, if_pos h]
    · intro h
      simp [getVal_averageComponents, h]
  · intro vals sc hne
    have hget : ∀ t : ℚ × ℚ × ℚ × ℚ,
        getVal (loss_fn_props_components t.1 t.2.1 t.2.2.1 t.2.2.2 sc)
            "L_total" =
          some (sc * (t.1 + t.2.1) + (t.2.2.1 + t.2.2.2) + loss_offset) := by
      intro t
      rw [loss_fn_props_components_eq]
      simp [getVal]
    have hval : ∀ t : ℚ × ℚ × ℚ × ℚ,
        valSum (loss_fn_props_components t.1 t.2.1 t.2.2.1 t.2.2.2 sc)
            "L_total" =
          sc * (t.1 + t.2.1) + (t.2.2.1 + t.2.2.2) + loss_offset := by
      intro t
      rw [loss_fn_props_components_eq]
      simp [valSum]
    obtain ⟨t0, ts, rfl⟩ := List.exists_cons_of_ne_nil hne
    have hany : (((t0 :: ts).map fun t =>
        loss_fn_props_components t.1 t.2.1 t.2.2.1 t.2.2.2 sc).any
          fun b => (getVal b "L_total").isSome) = true := by
      simp [List.any_cons, hget t0]
    unfold test_scalar_props
    rw [getVal_averageComponents, if_pos hany, List.map_map]
    have hfun : ((fun b => valSum b "L_total") ∘ fun t : ℚ × ℚ × ℚ × ℚ =>
        loss_fn_props_components t.1 t.2.1 t.2.2.1 t.2.2.2 sc) =
        fun t : ℚ × ℚ × ℚ × ℚ =>
          sc * (t.1 + t.2.1) + (t.2.2.1 + t.2.2.2) + loss_offset := by
      funext t
      exact hval t
    rw [hfun, List.length_map]
  · intro pairs hne
    have hN : ((pairs.length : ℚ)) ≠ 0 :=
      Nat.cast_ne_zero.mpr (List.length_pos.mpr hne).ne'
    have hgetT : ∀ q : ℚ × ℚ,
        getVal (oc_components q.1 q.2) "L_total" = none := by
      intro q
      simp [oc_components, getVal]
    have hgetV : ∀ q : ℚ × ℚ,
        getVal (oc_components q.1 q.2) "L_V" = some q.1 := by
      intro q
      simp [oc_components, getVal]
    have hgetB : ∀ q : ℚ × ℚ,
        getVal (oc_components q.1 q.2) "L_beta" = some q.2 := by
      intro q
      simp [oc_components, getVal]
    have hvalV : ∀ q : ℚ × ℚ,
        valSum (oc_components q.1 q.2) "L_V" = q.1 := by
      intro q
      simp [oc_components, valSum]
    have hvalB : ∀ q : ℚ × ℚ,
        valSum (oc_components q.1 q.2) "L_beta" = q.2 := by
      intro q
      simp [oc_components, valSum]
    have hanyT : ((pairs.map fun q => oc_components q.1 q.2).any
        fun b => (getVal b "L_total").isSome) = false := by
      rw [List.any_eq_false]
      intro b hb
      rw [List.mem_map] at hb
      obtain ⟨q, _, rfl⟩ := hb
      simp [hgetT q]
    obtain ⟨p0, ps, rfl⟩ := List.exists_cons_of_ne_nil hne
    have hanyV : (((p0 :: ps).map fun q => oc_components q.1 q.2).any
        fun b => (getVal b "L_V").isSome) = true := by
      simp [List.any_cons, hgetV p0]
    have hanyB : (((p0 :: ps).map fun q => oc_components q.1 q.2).any
        fun b => (getVal b "L_beta").isSome) = true := by
      simp [List.any_cons, hgetB p0]
    have hfunV : ((fun b => valSum b "L_V") ∘ fun q : ℚ × ℚ =>
        oc_components q.1 q.2) = fun q : ℚ × ℚ => q.1 := by
      funext q
      exact hvalV q
    have hfunB : ((fun b => valSum b "L_beta") ∘ fun q : ℚ × ℚ =>
        oc_components q.1 q.2) = fun q : ℚ × ℚ => q.2 := by
      funext q
      exact hvalB q
    have havgV : getVal (averageComponents
        ((p0 :: ps).map fun q => oc_components q.1 q.2)) "L_V" =
        some (((p0 :: ps).map fun q : ℚ × ℚ => q.1).sum /
          ((p0 :: ps).length : ℚ)) := by
      rw [getVal_averageComponents, if_pos hanyV, List.map_map, hfunV,
        List.length_map]
    have havgB : getVal (averageComponents
        ((p0 :: ps).map fun q => oc_components q.1 q.2)) "L_beta" =
        some (((p0 :: ps).map fun q : ℚ × ℚ => q.2).sum /
          ((p0 :: ps).length : ℚ)) := by
      rw [getVal_averageComponents, if_pos hanyB, List.map_map, hfunB,
        List.length_map]
    refine ⟨?_, ?_⟩
    · rw [getVal_averageComponents, if_neg (ne_true_of_eq_false hanyT)]
    have harith : loss_offset +
        ((p0 :: ps).map fun q : ℚ × ℚ => q.1).sum / ((p0 :: ps).length : ℚ) +
        ((p0 :: ps).map fun q : ℚ × ℚ => q.2).sum / ((p0 :: ps).length : ℚ) =
        ((p0 :: ps).map fun q : ℚ × ℚ => q.1 + q.2 + loss_offset).sum /
          ((p0 :: ps).length : ℚ) := by
      rw [sum_map_total]
      field_simp
      ring
    simp only [test_scalar_anneal, havgV, havgB, Option.bind_some]
    rw [← harith]
    rfl

/-- C7 counterexample: for a single annealing-variant validation batch whose
external loss mapping is `L_V = 2`, `L_beta = 3`, the averaged breakdown has
no total-loss component at all, yet the compared epoch scalar exists and is
re-derived from the formula as `loss_offset + 2 + 3 = 6` — so the compared
scalar is not the total-loss component of the averaged breakdown. -/
theorem anneal_scalar_not_total_component :
    getVal (averageComponents [oc_components 2 3]) "L_total" = none ∧
    test_scalar_anneal [oc_components 2 3] = some 6 := by
  constructor
  · decide
  · norm_num [test_scalar_anneal, averageComponents, accumulateComponents,
      updateComponents, oc_components, setVal, getVal, loss_offset,
      (by decide : ¬("L_V" = "L_beta"))]

/-- Witness for C7 amended, at the one-batch list with `L_V = 2`,
`L_beta = 3`. -/
theorem validation_accumulation_spec_witness :
    getVal (averageComponents ([((2:ℚ), (3:ℚ))].map fun q =>
        oc_components q.1 q.2)) "L_total" = none ∧
    test_scalar_anneal ([((2:ℚ), (3:ℚ))].map fun q => oc_components q.1 q.2) =
      some ((([((2:ℚ), (3:ℚ))].map fun q => q.1 + q.2 + loss_offset).sum) /
        (([((2:ℚ), (3:ℚ))] : List (ℚ × ℚ)).length : ℚ)) :=
  validation_accumulation_spec.2.2 [((2:ℚ), (3:ℚ))] (by decide)
